import Mathlib

/-!
Verification development for the `discover` command of the olake/shift
repository (`src/protocol/discover.go`) and its logging helpers
(`src/logger/logger.go`).

The development contains:
* a shallow embedding of JSON-compatible record values (`types.RecordData`);
* a model of the type-resolution algorithm (`typing.Resolve`), whose Go
  source is not part of the excerpt and is therefore modelled from the
  specification (§4.3);
* an operational small-step model of one per-stream sampling pipeline
  (the producer/consumer goroutine pair spawned by `DiscoverCmd`, lines
  48-87 of `discover.go`), with Go channel semantics: a buffered channel
  of capacity `recordsPerStream`, close is idempotent (`safego.Close`),
  and receives from a closed channel still drain buffered items;
* an operational model of the whole `DiscoverCmd.RunE` run: the main
  goroutine (setup / check / discover / spawn / `group.Wait()` /
  `LogCatalog`), all per-stream pipelines, and process exit via
  `logger.Fatal` / `logger.Fatalf` (`os.Exit(1)` stops every goroutine);
* a model of `logger.FileLogger` (lines 97-125 of `logger.go`).
-/

/-- JSON-compatible record value, embedding `types.RecordData`
(`map[string]interface{}` holding arbitrary JSON-like data).  Numbers are
rationals; a number counts as integer-kinded when it has no fractional
part (denominator 1).  Object fields are kept as an ordered association
list (first-seen order, as the specification fixes for `PropertySchema`). -/
inductive RecordData : Type where
  | null : RecordData
  | bool (b : Bool) : RecordData
  | num (q : ℚ) : RecordData
  | str (s : String) : RecordData
  | arr (xs : List RecordData) : RecordData
  | obj (fs : List (String × RecordData)) : RecordData

/-- Kind classification of a value, per §4.3 rule 1 of the specification. -/
inductive VKind : Type where
  | knull | kbool | kint | knum | kstr | karr | kobj
deriving DecidableEq

/-- Modelled from the spec: rule 1 of §4.3 — classify one occurrence's
Kind; a numeric value is integer-kinded when it has no fractional part. -/
def kindOf : RecordData → VKind
  | .null => .knull
  | .bool _ => .kbool
  | .num q => if q.den = 1 then .kint else .knum
  | .str _ => .kstr
  | .arr _ => .karr
  | .obj _ => .kobj

/-- Resolved type descriptor (spec §3, Type Descriptor): one of null,
boolean, integer, number, string, array(elementType), object(PropertySchema),
union(set of Kinds).  The nullable flag is carried alongside the
descriptor as the `Bool` component of `TypeDesc × Bool` pairs. -/
inductive TypeDesc : Type where
  | null | boolean | integer | number | string
  | array (elem : Option (TypeDesc × Bool))
  | object (props : List (String × TypeDesc × Bool))
  | union (kinds : List VKind)

/-- PropertySchema: field name to (Type Descriptor, nullable), in
first-seen order. -/
abbrev PropertySchema := List (String × TypeDesc × Bool)

/-- Deduplicate a list keeping the first occurrence of each element, so
that orderings "by first appearance" (spec §4.3 rule 5) are preserved. -/
def dedupFirst {α : Type} [DecidableEq α] (l : List α) : List α :=
  l.foldl (fun acc a => if a ∈ acc then acc else acc ++ [a]) []

/-- An occurrence counts toward nullability when the field is absent
(`none`) or null in that record (spec §4.3 rule 2). -/
def isNullOcc : Option RecordData → Bool
  | none => true
  | some .null => true
  | some _ => false

/-- Keep an occurrence only when it is present and non-null. -/
def keepNonNull : Option RecordData → Option RecordData
  | none => none
  | some .null => none
  | some v => some v

/-- The non-null values among a field's occurrences. -/
def nonNulls (occs : List (Option RecordData)) : List RecordData :=
  occs.filterMap keepNonNull

/-- The element list of an array value, if any. -/
def arrFields : RecordData → Option (List RecordData)
  | .arr xs => some xs
  | _ => none

/-- The field list of an object value, if any. -/
def objFields : RecordData → Option (List (String × RecordData))
  | .obj fs => some fs
  | _ => none

/-- The element lists of the array-valued occurrences. -/
def arraysOf (vs : List RecordData) : List (List RecordData) :=
  vs.filterMap arrFields

/-- The field lists of the object-valued occurrences. -/
def objectsOf (vs : List RecordData) : List (List (String × RecordData)) :=
  vs.filterMap objFields

/-- First binding of a field name in an object's association list. -/
def alookup (f : String) : List (String × RecordData) → Option RecordData
  | [] => none
  | (g, v) :: rest => if g = f then some v else alookup f rest

mutual
/-- Executable structural size of a value, the resolver's termination
measure. -/
def vsize : RecordData → Nat
  | .null => 1
  | .bool _ => 1
  | .num _ => 1
  | .str _ => 1
  | .arr xs => 1 + vsizeL xs
  | .obj fs => 1 + vsizeF fs

/-- Size of a list of values. -/
def vsizeL : List RecordData → Nat
  | [] => 0
  | v :: rest => 1 + vsize v + vsizeL rest

/-- Size of an object's field list. -/
def vsizeF : List (String × RecordData) → Nat
  | [] => 0
  | (_, v) :: rest => 1 + vsize v + vsizeF rest
end

/-- Size of one optional occurrence. -/
def osize : Option RecordData → Nat
  | none => 0
  | some v => vsize v

/-- Total size of a list of occurrences, the resolver's termination
measure. -/
def sumOsize (occs : List (Option RecordData)) : Nat :=
  (occs.map osize).sum

/-- Total size of a list of values. -/
def sumVals (vs : List RecordData) : Nat :=
  (vs.map vsize).sum

theorem vsize_pos (v : RecordData) : 0 < vsize v := by
  cases v <;> simp [vsize]

theorem sumVals_le_vsizeL (xs : List RecordData) : sumVals xs ≤ vsizeL xs := by
  induction xs with
  | nil => simp [sumVals, vsizeL]
  | cons a l ih =>
    simp only [sumVals, List.map_cons, List.sum_cons, vsizeL] at *
    omega

theorem sumVals_nonNulls_le (occs : List (Option RecordData)) :
    sumVals (nonNulls occs) ≤ sumOsize occs := by
  induction occs with
  | nil => simp [sumVals, sumOsize, nonNulls]
  | cons o rest ih =>
    have hsum : sumOsize (o :: rest) = osize o + sumOsize rest := by
      simp [sumOsize]
    rw [hsum]
    match o with
    | none =>
      have h1 : nonNulls (none :: rest) = nonNulls rest := by
        simp [nonNulls, List.filterMap_cons, keepNonNull]
      rw [h1]; omega
    | some .null =>
      have h1 : nonNulls (some RecordData.null :: rest) = nonNulls rest := by
        simp [nonNulls, List.filterMap_cons, keepNonNull]
      rw [h1]; omega
    | some (.bool b) =>
      have h1 : nonNulls (some (RecordData.bool b) :: rest) =
          RecordData.bool b :: nonNulls rest := by
        simp [nonNulls, List.filterMap_cons, keepNonNull]
      rw [h1]
      simp only [sumVals, List.map_cons, List.sum_cons, osize] at *
      omega
    | some (.num q) =>
      have h1 : nonNulls (some (RecordData.num q) :: rest) =
          RecordData.num q :: nonNulls rest := by
        simp [nonNulls, List.filterMap_cons, keepNonNull]
      rw [h1]
      simp only [sumVals, List.map_cons, List.sum_cons, osize] at *
      omega
    | some (.str s) =>
      have h1 : nonNulls (some (RecordData.str s) :: rest) =
          RecordData.str s :: nonNulls rest := by
        simp [nonNulls, List.filterMap_cons, keepNonNull]
      rw [h1]
      simp only [sumVals, List.map_cons, List.sum_cons, osize] at *
      omega
    | some (.arr xs) =>
      have h1 : nonNulls (some (RecordData.arr xs) :: rest) =
          RecordData.arr xs :: nonNulls rest := by
        simp [nonNulls, List.filterMap_cons, keepNonNull]
      rw [h1]
      simp only [sumVals, List.map_cons, List.sum_cons, osize] at *
      omega
    | some (.obj fs) =>
      have h1 : nonNulls (some (RecordData.obj fs) :: rest) =
          RecordData.obj fs :: nonNulls rest := by
        simp [nonNulls, List.filterMap_cons, keepNonNull]
      rw [h1]
      simp only [sumVals, List.map_cons, List.sum_cons, osize] at *
      omega

theorem arrays_flatten_sum_lt (vs : List RecordData) (h : arraysOf vs ≠ []) :
    sumVals (arraysOf vs).flatten < sumVals vs := by
  induction vs with
  | nil => simp [arraysOf] at h
  | cons v rest ih =>
    have hsum : sumVals (v :: rest) = vsize v + sumVals rest := by
      simp [sumVals]
    rw [hsum]
    match v with
    | .arr xs =>
      have hcons : arraysOf (RecordData.arr xs :: rest) = xs :: arraysOf rest := by
        simp [arraysOf, List.filterMap_cons, arrFields]
      have hx : sumVals xs ≤ vsizeL xs := sumVals_le_vsizeL xs
      have hflat : sumVals ((xs :: arraysOf rest).flatten) =
          sumVals xs + sumVals (arraysOf rest).flatten := by
        simp [sumVals, List.flatten_cons]
      rw [hcons, hflat]
      by_cases hrest : arraysOf rest = []
      · rw [hrest]
        simp only [List.flatten_nil, sumVals, List.map_nil, List.sum_nil, vsize]
        simp only [sumVals] at hx
        omega
      · have hr := ih hrest
        simp only [vsize]
        omega
    | .null =>
      have hcons : arraysOf (RecordData.null :: rest) = arraysOf rest := by
        simp [arraysOf, List.filterMap_cons, arrFields]
      rw [hcons] at h ⊢
      have hr := ih h
      omega
    | .bool b =>
      have hcons : arraysOf (RecordData.bool b :: rest) = arraysOf rest := by
        simp [arraysOf, List.filterMap_cons, arrFields]
      rw [hcons] at h ⊢
      have hr := ih h
      omega
    | .num q =>
      have hcons : arraysOf (RecordData.num q :: rest) = arraysOf rest := by
        simp [arraysOf, List.filterMap_cons, arrFields]
      rw [hcons] at h ⊢
      have hr := ih h
      omega
    | .str s =>
      have hcons : arraysOf (RecordData.str s :: rest) = arraysOf rest := by
        simp [arraysOf, List.filterMap_cons, arrFields]
      rw [hcons] at h ⊢
      have hr := ih h
      omega
    | .obj fs =>
      have hcons : arraysOf (RecordData.obj fs :: rest) = arraysOf rest := by
        simp [arraysOf, List.filterMap_cons, arrFields]
      rw [hcons] at h ⊢
      have hr := ih h
      omega

theorem alookup_osize_le (fs : List (String × RecordData)) (f : String) :
    osize (alookup f fs) ≤ vsizeF fs := by
  induction fs with
  | nil => simp [alookup, osize, vsizeF]
  | cons p rest ih =>
    obtain ⟨g, v⟩ := p
    simp only [alookup, vsizeF]
    by_cases hgf : g = f
    · simp only [if_pos hgf, osize]
      omega
    · simp only [if_neg hgf]
      omega

theorem objects_lookup_sum_lt (vs : List RecordData) (f : String)
    (h : objectsOf vs ≠ []) :
    sumOsize ((objectsOf vs).map (fun fs => alookup f fs)) < sumVals vs := by
  induction vs with
  | nil => simp [objectsOf] at h
  | cons v rest ih =>
    have hsum : sumVals (v :: rest) = vsize v + sumVals rest := by
      simp [sumVals]
    rw [hsum]
    match v with
    | .obj fs =>
      have hcons : objectsOf (RecordData.obj fs :: rest) = fs :: objectsOf rest := by
        simp [objectsOf, List.filterMap_cons, objFields]
      have hx : osize (alookup f fs) ≤ vsizeF fs := alookup_osize_le fs f
      have hmap : sumOsize ((fs :: objectsOf rest).map (fun gs => alookup f gs)) =
          osize (alookup f fs) +
            sumOsize ((objectsOf rest).map (fun gs => alookup f gs)) := by
        simp [sumOsize]
      rw [hcons, hmap]
      by_cases hrest : objectsOf rest = []
      · rw [hrest]
        simp only [List.map_nil, sumOsize, List.sum_nil, vsize]
        have h0 : 0 ≤ sumVals rest := Nat.zero_le _
        omega
      · have hr := ih hrest
        simp only [vsize]
        omega
    | .null =>
      have hcons : objectsOf (RecordData.null :: rest) = objectsOf rest := by
        simp [objectsOf, List.filterMap_cons, objFields]
      rw [hcons] at h ⊢
      have hr := ih h
      omega
    | .bool b =>
      have hcons : objectsOf (RecordData.bool b :: rest) = objectsOf rest := by
        simp [objectsOf, List.filterMap_cons, objFields]
      rw [hcons] at h ⊢
      have hr := ih h
      omega
    | .num q =>
      have hcons : objectsOf (RecordData.num q :: rest) = objectsOf rest := by
        simp [objectsOf, List.filterMap_cons, objFields]
      rw [hcons] at h ⊢
      have hr := ih h
      omega
    | .str s =>
      have hcons : objectsOf (RecordData.str s :: rest) = objectsOf rest := by
        simp [objectsOf, List.filterMap_cons, objFields]
      rw [hcons] at h ⊢
      have hr := ih h
      omega
    | .arr xs =>
      have hcons : objectsOf (RecordData.arr xs :: rest) = objectsOf rest := by
        simp [objectsOf, List.filterMap_cons, objFields]
      rw [hcons] at h ⊢
      have hr := ih h
      omega

theorem mem_dedupFirst_aux {α : Type} [DecidableEq α] (l acc : List α) (x : α)
    (h : x ∈ l.foldl (fun acc a => if a ∈ acc then acc else acc ++ [a]) acc) :
    x ∈ acc ∨ x ∈ l := by
  induction l generalizing acc with
  | nil => simp only [List.foldl_nil] at h; exact Or.inl h
  | cons b rest ih =>
    simp only [List.foldl_cons] at h
    rcases ih _ h with hx | hx
    · by_cases hb : b ∈ acc
      · rw [if_pos hb] at hx; exact Or.inl hx
      · rw [if_neg hb] at hx
        simp only [List.mem_append, List.mem_singleton] at hx
        rcases hx with hx | hx
        · exact Or.inl hx
        · exact Or.inr (by simp [hx])
    · exact Or.inr (by simp [hx])

theorem mem_dedupFirst {α : Type} [DecidableEq α] (l : List α) (a : α) :
    a ∈ dedupFirst l → a ∈ l := by
  intro h
  rcases mem_dedupFirst_aux l [] a h with hx | hx
  · simp at hx
  · exact hx

theorem nonNulls_mem (occs : List (Option RecordData)) (v : RecordData)
    (h : v ∈ nonNulls occs) : some v ∈ occs := by
  simp only [nonNulls, List.mem_filterMap] at h
  obtain ⟨o, ho, hov⟩ := h
  match o with
  | none => simp [keepNonNull] at hov
  | some .null => simp [keepNonNull] at hov
  | some (.bool b) => simp [keepNonNull] at hov; rw [← hov]; exact ho
  | some (.num q) => simp [keepNonNull] at hov; rw [← hov]; exact ho
  | some (.str s) => simp [keepNonNull] at hov; rw [← hov]; exact ho
  | some (.arr xs) => simp [keepNonNull] at hov; rw [← hov]; exact ho
  | some (.obj fs) => simp [keepNonNull] at hov; rw [← hov]; exact ho

theorem kindOf_karr (v : RecordData) (h : kindOf v = VKind.karr) :
    ∃ xs, v = RecordData.arr xs := by
  cases v with
  | num q => simp [kindOf] at h; split at h <;> simp_all
  | arr xs => exact ⟨xs, rfl⟩
  | _ => simp [kindOf] at h

theorem kindOf_kobj (v : RecordData) (h : kindOf v = VKind.kobj) :
    ∃ fs, v = RecordData.obj fs := by
  cases v with
  | num q => simp [kindOf] at h; split at h <;> simp_all
  | obj fs => exact ⟨fs, rfl⟩
  | _ => simp [kindOf] at h

theorem arraysOf_ne_nil_of_mem (vs : List RecordData) (xs : List RecordData)
    (h : RecordData.arr xs ∈ vs) : arraysOf vs ≠ [] := by
  intro hnil
  have : xs ∈ arraysOf vs := by
    simp only [arraysOf, List.mem_filterMap]
    exact ⟨RecordData.arr xs, h, rfl⟩
  rw [hnil] at this
  simp at this

theorem objectsOf_ne_nil_of_mem (vs : List RecordData)
    (fs : List (String × RecordData)) (h : RecordData.obj fs ∈ vs) :
    objectsOf vs ≠ [] := by
  intro hnil
  have : fs ∈ objectsOf vs := by
    simp only [objectsOf, List.mem_filterMap]
    exact ⟨RecordData.obj fs, h, rfl⟩
  rw [hnil] at this
  simp at this

theorem sumOsize_map_some (l : List RecordData) :
    sumOsize (l.map some) = sumVals l := by
  induction l with
  | nil => simp [sumOsize, sumVals]
  | cons a rest ih => simp [sumOsize, sumVals, osize] at *; omega

/-- The distinct non-null Kinds of a field's occurrences, in
first-appearance order (spec §4.3 rules 1 and 5). -/
def kindsOf (occs : List (Option RecordData)) : List VKind :=
  dedupFirst ((nonNulls occs).map kindOf)

/-- The distinct field names across a list of object field lists, in
first-seen order. -/
def fieldNames (objs : List (List (String × RecordData))) : List String :=
  dedupFirst (objs.map (List.map Prod.fst)).flatten

theorem sumOsize_arr_lt (occs : List (Option RecordData))
    (h : kindsOf occs = [VKind.karr]) :
    sumOsize (((arraysOf (nonNulls occs)).flatten).map some) < sumOsize occs := by
  have hmem : VKind.karr ∈ kindsOf occs := by rw [h]; simp
  have hmem2 := mem_dedupFirst _ _ hmem
  simp only [List.mem_map] at hmem2
  obtain ⟨v, hv, hkv⟩ := hmem2
  obtain ⟨xs, rfl⟩ := kindOf_karr v hkv
  have hne : arraysOf (nonNulls occs) ≠ [] := arraysOf_ne_nil_of_mem _ xs hv
  have h1 := arrays_flatten_sum_lt _ hne
  have h2 := sumVals_nonNulls_le occs
  have h3 := sumOsize_map_some ((arraysOf (nonNulls occs)).flatten)
  omega

theorem sumOsize_obj_lt (occs : List (Option RecordData)) (f : String)
    (h : kindsOf occs = [VKind.kobj]) :
    sumOsize ((objectsOf (nonNulls occs)).map (fun fs => alookup f fs)) <
      sumOsize occs := by
  have hmem : VKind.kobj ∈ kindsOf occs := by rw [h]; simp
  have hmem2 := mem_dedupFirst _ _ hmem
  simp only [List.mem_map] at hmem2
  obtain ⟨v, hv, hkv⟩ := hmem2
  obtain ⟨fs, rfl⟩ := kindOf_kobj v hkv
  have hne : objectsOf (nonNulls occs) ≠ [] := objectsOf_ne_nil_of_mem _ fs hv
  have h1 := objects_lookup_sum_lt (nonNulls occs) f hne
  have h2 := sumVals_nonNulls_le occs
  omega

/-- Modelled from the spec: the type-resolution algorithm of
`typing.Resolve` (§4.3), whose Go source is outside the excerpt.  Given
the occurrences of one field across the sample (`none` = field absent in
that record), it resolves one `(TypeDesc, nullable)` pair: rule 2 (absent
or null occurrences set the nullable flag), rule 3 (a single non-null
Kind resolves to that Kind), rule 4 (integer and number occurrences
together widen to number, not a union), rule 5 (otherwise a union over
the distinct Kinds in first-appearance order), rule 6 (object values
merge recursively, field by field, a field absent in some object being an
absent occurrence), rule 7 (array values resolve one shared element type
across the union of all elements of all instances). -/
def resolveOccs (occs : List (Option RecordData)) : TypeDesc × Bool :=
  if kindsOf occs = [] then (TypeDesc.null, true)
  else if kindsOf occs = [VKind.kbool] then (TypeDesc.boolean, occs.any isNullOcc)
  else if kindsOf occs = [VKind.kint] then (TypeDesc.integer, occs.any isNullOcc)
  else if kindsOf occs = [VKind.knum] then (TypeDesc.number, occs.any isNullOcc)
  else if kindsOf occs = [VKind.kstr] then (TypeDesc.string, occs.any isNullOcc)
  else if VKind.kint ∈ kindsOf occs ∧ VKind.knum ∈ kindsOf occs ∧
      (kindsOf occs).length = 2 then
    (TypeDesc.number, occs.any isNullOcc)
  else if harr : kindsOf occs = [VKind.karr] then
    have hlt := sumOsize_arr_lt occs harr
    if ((arraysOf (nonNulls occs)).flatten).isEmpty then
      (TypeDesc.array none, occs.any isNullOcc)
    else
      (TypeDesc.array
        (some (resolveOccs (((arraysOf (nonNulls occs)).flatten).map some))),
        occs.any isNullOcc)
  else if hobj : kindsOf occs = [VKind.kobj] then
    have hlt : ∀ g : String,
        sumOsize ((objectsOf (nonNulls occs)).map (fun fs => alookup g fs)) <
          sumOsize occs := fun g => sumOsize_obj_lt occs g hobj
    (TypeDesc.object
      ((fieldNames (objectsOf (nonNulls occs))).map fun f =>
        (f, resolveOccs ((objectsOf (nonNulls occs)).map fun fs => alookup f fs))),
      occs.any isNullOcc)
  else (TypeDesc.union (kindsOf occs), occs.any isNullOcc)
termination_by sumOsize occs
decreasing_by
  · exact hlt
  · exact hlt f

/-- Whether a top-level sampled value is a field-to-value mapping. -/
def isObj : RecordData → Bool
  | .obj _ => true
  | _ => false

/-- Modelled from the spec: `typing.Resolve` applied to one stream's
SampleSet (§4.3).  Fails with a malformed-record error if a top-level
sampled value is not a field-to-value mapping; otherwise resolves every
field name, in first-seen order across the sample, against its
occurrences in all records (a record that lacks the field contributes an
absent occurrence, rule 2). -/
def typingResolve (records : List RecordData) : Except String PropertySchema :=
  if records.all isObj then
    Except.ok
      ((fieldNames (objectsOf records)).map fun f =>
        (f, resolveOccs ((objectsOf records).map fun fs => alookup f fs)))
  else Except.error "MalformedRecordError: a sampled value is not an object"

/-- The per-stream sample cap, `recordsPerStream := 100` in
`DiscoverCmd.RunE` (discover.go line 48). -/
def recordsPerStream : Nat := 100

/-- A Go buffered channel of `types.Record` values with capacity
`recordsPerStream` (discover.go line 56).  Close is idempotent
(`safego.Close`); receiving from a closed channel still drains the
buffered items, and the range loop over the channel ends once it is
closed and drained. -/
structure GoChan where
  buffer : List RecordData
  closed : Bool

/-- State of the producer goroutine (discover.go lines 58-66): it runs
`connector.Read(stream, channel)`, then either observes a read error
(and will call `logger.Fatalf` without closing the channel) or closes
the channel via `safego.Close` and finishes. -/
inductive ProdState : Type where
  | running
  | errored (e : String)
  | finished

/-- State of the consumer (discover.go lines 68-85): ranging over the
channel, then calling `typing.Resolve`, then either attaching the schema
and calling `group.Done()` or observing a resolution error (and calling
`logger.Fatal`). -/
inductive ConsState : Type where
  | looping
  | resolving
  | done (props : PropertySchema)
  | failed (e : String)

/-- One per-stream sampling pipeline: the channel shared by the
producer/consumer goroutine pair, the records the source has yet to
deliver (`pending`), the error the source will report after delivering
them (`readErr`, the error returned by `connector.Read`), the consumer's
in-memory buffer (`objects`) and its `count`. -/
structure Pipe where
  name : String
  chan : GoChan
  pending : List RecordData
  readErr : Option String
  prod : ProdState
  objects : List RecordData
  count : Nat
  cons : ConsState

/-- Scheduler labels for the atomic steps of one pipeline.
`send`: the producer delivers the next record into the channel (enabled
  while the channel is open and not full — a send on a full channel
  blocks, a send on a closed channel is not taken: the read capability
  stops at the closure signal, spec §4.2/§6);
`early`: the producer observes the closure signal with records still
  undelivered and `connector.Read` returns nil (early-stop);
`finish`: the source is exhausted without error, `connector.Read`
  returns nil and the producer closes the channel (lines 59-65);
`error`: the source is exhausted up to its failure point and
  `connector.Read` returns its error (line 60), leaving the channel
  unclosed;
`recv`: one iteration of the consumer's range loop (lines 68-74):
  dequeue a record, append `record.Data` to `objects`, increment
  `count`, and close the channel if `count ≥ recordsPerStream`;
`exit`: the range loop ends (channel closed and drained);
`resolve`: the consumer runs `typing.Resolve` on `objects` (line 76)
  and either attaches the schema and calls `group.Done()` (lines 81-85)
  or observes the resolution error (line 78). -/
inductive PLabel : Type where
  | send | early | finish | error | recv | exit | resolve
deriving DecidableEq

/-- One atomic step of a pipeline; `none` when the label is not enabled. -/
def pstep : PLabel → Pipe → Option Pipe
  | .send, p =>
    match p.prod, p.pending with
    | .running, r :: rest =>
      if p.chan.closed then none
      else if p.chan.buffer.length < recordsPerStream then
        some { p with chan := { p.chan with buffer := p.chan.buffer ++ [r] },
                      pending := rest }
      else none
    | _, _ => none
  | .early, p =>
    match p.prod, p.pending with
    | .running, _ :: _ => if p.chan.closed then some { p with prod := .finished } else none
    | _, _ => none
  | .finish, p =>
    match p.prod, p.pending, p.readErr with
    | .running, [], none =>
      some { p with prod := .finished, chan := { p.chan with closed := true } }
    | _, _, _ => none
  | .error, p =>
    match p.prod, p.pending, p.readErr with
    | .running, [], some e => some { p with prod := .errored e }
    | _, _, _ => none
  | .recv, p =>
    match p.cons, p.chan.buffer with
    | .looping, r :: rest =>
      some { p with
        chan := { buffer := rest,
                  closed := p.chan.closed || decide (p.count + 1 ≥ recordsPerStream) },
        objects := p.objects ++ [r],
        count := p.count + 1 }
    | _, _ => none
  | .exit, p =>
    match p.cons, p.chan.buffer, p.chan.closed with
    | .looping, [], true => some { p with cons := .resolving }
    | _, _, _ => none
  | .resolve, p =>
    match p.cons with
    | .resolving =>
      some { p with cons :=
        match typingResolve p.objects with
        | .ok pr => .done pr
        | .error e => .failed e }
    | _ => none

/-- Initial pipeline state for a stream whose source will deliver `recs`
and then report `readErr` (if any). -/
def pinit (name : String) (recs : List RecordData) (readErr : Option String) : Pipe :=
  { name := name, chan := { buffer := [], closed := false }, pending := recs,
    readErr := readErr, prod := .running, objects := [], count := 0,
    cons := .looping }

/-- Run a pipeline under a schedule; `none` if some step is not enabled. -/
def prun : List PLabel → Pipe → Option Pipe
  | [], p => some p
  | l :: ls, p =>
    match pstep l p with
    | some q => prun ls q
    | none => none

/-- Invariant of one pipeline started on source `recs`: no record is
duplicated or lost between the source, the channel buffer and the
consumer's buffer; `count` tracks the consumer's buffer; the channel is
only closed once the producer has delivered everything (and the source
did not fail) or the consumer reached the cap; and once the consumer has
left its range loop the channel is closed and drained. -/
def sampInv (recs : List RecordData) (p : Pipe) : Prop :=
  p.objects ++ p.chan.buffer ++ p.pending = recs ∧
  p.count = p.objects.length ∧
  (p.chan.closed = true →
    (p.pending = [] ∧ p.readErr = none) ∨ recordsPerStream ≤ p.count) ∧
  (p.cons = ConsState.looping ∨ (p.chan.closed = true ∧ p.chan.buffer = []))

/-- Whether a consumer has attached its schema and called `group.Done()`
(discover.go lines 81-85): the `sync.WaitGroup` barrier of line 89 passes
once this holds for every stream. -/
def consDoneB : ConsState → Bool
  | .done _ => true
  | _ => false

/-- The resolved PropertySchema recorded on the stream by
`WithJSONSchema` (discover.go lines 81-83); defaults to `[]` for a
consumer that has not finished (never read by the model: the catalog is
built only after the barrier). -/
def consProps : ConsState → PropertySchema
  | .done pr => pr
  | _ => []

/-- Description of one stream as the connector's enumeration returns it:
its name, the records its source will deliver, and the error
`connector.Read` will report after delivering them (if any). -/
structure SDef where
  name : String
  recs : List RecordData
  readErr : Option String

/-- Input of one `DiscoverCmd.RunE` run, covering the external calls of
lines 24-46: whether the `rawConnector.(Driver)` type assertion holds,
the errors of `connector.Setup` and `connector.Check`, and the result of
`connector.Discover` (an error, or the ordered stream list). -/
structure DiscoverInput where
  castOk : Bool
  setupErr : Option String
  checkErr : Option String
  discover : Except String (List SDef)

/-- Program counter of the main goroutine of `DiscoverCmd.RunE`:
`start` covers the straight-line prelude (lines 24-46) up to spawning the
pipelines (lines 48-87); `fatalPending` means some prelude check failed
and `logger.Fatal` is about to run; `spawned` blocks on `group.Wait()`
(line 89); `waited` is about to build `unwrappedStreams` and call
`LogCatalog` (lines 91-97); `logged` is about to `return nil` (line 98). -/
inductive MainPC : Type where
  | start
  | fatalPending (msg : String)
  | spawned
  | waited
  | logged
  | returned

/-- Global state of one `DiscoverCmd.RunE` run: the main goroutine, all
per-stream pipelines, whether the process has exited via `logger.Fatal`
or `logger.Fatalf` (`os.Exit(1)`, which stops every goroutine), the
catalog value handed to `logger.LogCatalog` (if reached), and whether
`RunE` returned (its only return is `return nil`, line 98). -/
structure Sys where
  input : DiscoverInput
  mainPC : MainPC
  pipes : List Pipe
  exited : Option String
  emitted : Option (List (String × PropertySchema))
  returned : Bool

/-- The message of the `logger.Fatal` call on the failed type assertion
(discover.go line 26). -/
def typeCastMsg : String := "expected type to be: Connector"

/-- The message of the `logger.Fatal` call on an empty stream list
(discover.go line 45). -/
def emptyStreamsMsg : String := "no streams found in connector"

/-- The message of the `logger.Fatalf` call on a read error
(discover.go line 61). -/
def readFatalMsg (name e : String) : String :=
  "Error occurred while reading records from [" ++ name ++ "]: " ++ e

/-- The catalog assembly of discover.go lines 91-95: `utils.ArrayContains`
iterates the streams in enumeration order and the predicate appends each
one's unwrapped stream (name and attached schema) to `unwrappedStreams`,
always returning false, so every stream is appended in order. -/
def unwrapCatalog (pipes : List Pipe) : List (String × PropertySchema) :=
  pipes.foldl (fun acc p => acc ++ [(p.name, consProps p.cons)]) []

/-- One step of the main goroutine, driven by its program counter. -/
def mainStep (s : Sys) : Option Sys :=
  match s.mainPC with
  | .start =>
    if s.input.castOk = false then
      some { s with mainPC := .fatalPending typeCastMsg }
    else
      match s.input.setupErr with
      | some e => some { s with mainPC := .fatalPending e }
      | none =>
        match s.input.checkErr with
        | some e => some { s with mainPC := .fatalPending e }
        | none =>
          match s.input.discover with
          | .error e => some { s with mainPC := .fatalPending e }
          | .ok ss =>
            if ss.isEmpty then
              some { s with mainPC := .fatalPending emptyStreamsMsg }
            else
              some { s with mainPC := .spawned,
                            pipes := ss.map fun sd => pinit sd.name sd.recs sd.readErr }
  | .fatalPending e => some { s with exited := some e }
  | .spawned =>
    if s.pipes.all (fun p => consDoneB p.cons) then
      some { s with mainPC := .waited }
    else none
  | .waited =>
    some { s with mainPC := .logged, emitted := some (unwrapCatalog s.pipes) }
  | .logged => some { s with mainPC := .returned, returned := true }
  | .returned => none

/-- Scheduler labels of the whole run: a main-goroutine step, one step of
pipeline `i`, or the `os.Exit(1)` of a pending `logger.Fatalf` in
pipeline `i`'s producer (line 61) or `logger.Fatal` in its consumer
(line 78). -/
inductive SLabel : Type where
  | main
  | pipe (i : Nat) (l : PLabel)
  | fatalProd (i : Nat)
  | fatalCons (i : Nat)

/-- One atomic step of the whole run.  Nothing can step once the process
has exited (`os.Exit` terminates every goroutine). -/
def sstep : SLabel → Sys → Option Sys
  | l, s =>
    if s.exited.isSome then none
    else
      match l with
      | .main => mainStep s
      | .pipe i pl =>
        match s.pipes[i]? with
        | some p => (pstep pl p).map fun q => { s with pipes := s.pipes.set i q }
        | none => none
      | .fatalProd i =>
        match s.pipes[i]? with
        | some p =>
          match p.prod with
          | .errored e => some { s with exited := some (readFatalMsg p.name e) }
          | _ => none
        | none => none
      | .fatalCons i =>
        match s.pipes[i]? with
        | some p =>
          match p.cons with
          | .failed e => some { s with exited := some e }
          | _ => none
        | none => none

/-- Initial state of a `DiscoverCmd.RunE` run. -/
def sinit (input : DiscoverInput) : Sys :=
  { input := input, mainPC := .start, pipes := [], exited := none,
    emitted := none, returned := false }

/-- Run the whole system under a schedule; `none` if some step is not
enabled. -/
def srun : List SLabel → Sys → Option Sys
  | [], s => some s
  | l :: ls, s =>
    match sstep l s with
    | some t => srun ls t
    | none => none

/-- Invariant of a run whose prelude succeeds but whose stream
enumeration is empty: no pipeline is ever spawned, nothing is emitted,
the run never returns, and the only possible exit is the
`logger.Fatal("no streams found in connector")` of line 45. -/
def emptyDiscInv (s : Sys) : Prop :=
  s.input.castOk = true ∧ s.input.setupErr = none ∧ s.input.checkErr = none ∧
  s.input.discover = Except.ok [] ∧
  s.pipes = [] ∧ s.emitted = none ∧ s.returned = false ∧
  (s.mainPC = MainPC.start ∨ s.mainPC = MainPC.fatalPending emptyStreamsMsg) ∧
  (∀ m, s.exited = some m → m = emptyStreamsMsg)

/-- Invariant behind C9: `RunE`'s only return statement is `return nil`,
placed after `LogCatalog` (lines 97-98), so a run that has returned has
its catalog emitted. -/
def returnInv (s : Sys) : Prop :=
  (s.returned = true → s.mainPC = MainPC.returned) ∧
  ((s.mainPC = MainPC.logged ∨ s.mainPC = MainPC.returned) →
    s.emitted.isSome = true)

/-- Invariant behind C5: once spawned, the pipelines carry the stream
names in enumeration order; the barrier is passed only with every
consumer done; and the emitted catalog equals the name/schema pairs of
the pipelines in order. -/
def catInv (ss : List SDef) (s : Sys) : Prop :=
  s.input.discover = Except.ok ss ∧
  ((s.mainPC = MainPC.spawned ∨ s.mainPC = MainPC.waited ∨
    s.mainPC = MainPC.logged ∨ s.mainPC = MainPC.returned) →
    s.pipes.map Pipe.name = ss.map SDef.name) ∧
  ((s.mainPC = MainPC.waited ∨ s.mainPC = MainPC.logged ∨
    s.mainPC = MainPC.returned) →
    ∀ p ∈ s.pipes, consDoneB p.cons = true) ∧
  (∀ cat, s.emitted = some cat →
    (s.mainPC = MainPC.logged ∨ s.mainPC = MainPC.returned) ∧
    cat = s.pipes.map (fun p => (p.name, consProps p.cons)))

/-- Whether a producer has observed a read error and its
`logger.Fatalf` (line 61) is pending. -/
def isProdErroredB : ProdState → Bool
  | .errored _ => true
  | _ => false

/-- Source used by the cap-overshoot run: 101 empty-object records. -/
def c1Source : List RecordData := List.replicate 101 (RecordData.obj [])

/-- Schedule of the cap-overshoot run: the producer fills the channel
with 100 records, the consumer receives 99 of them, the producer sends
record 101 and (source exhausted) closes the channel, and the consumer's
range loop then drains the two still-buffered records past the cap
before ending. -/
def c1Sched : List PLabel :=
  List.replicate 100 PLabel.send ++ List.replicate 99 PLabel.recv ++
    [PLabel.send, PLabel.finish, PLabel.recv, PLabel.recv, PLabel.exit,
     PLabel.resolve]

/-- Input of the C2 run: stream "a" delivers 150 records and then its
read fails; stream "b" delivers one record and succeeds. -/
def c2Input : DiscoverInput :=
  { castOk := true, setupErr := none, checkErr := none,
    discover := Except.ok
      [⟨"a", List.replicate 150 (RecordData.obj []), some "boom"⟩,
       ⟨"b", [RecordData.obj []], none⟩] }

/-- Schedule of the C2 run: stream "b" completes; stream "a"'s producer
delivers all 150 records (the consumer consuming 99 in between keeps the
buffer under its capacity) and observes the read error; stream "a"'s
consumer reaches the cap, closes the channel, drains the remaining
buffered records, resolves, and calls `group.Done()`; the main goroutine
then passes `group.Wait()` and calls `LogCatalog` — all before the failed
producer's pending `logger.Fatalf` reaches `os.Exit(1)`. -/
def c2Sched : List SLabel :=
  [.main] ++
  [.pipe 1 .send, .pipe 1 .finish, .pipe 1 .recv, .pipe 1 .exit,
   .pipe 1 .resolve] ++
  List.replicate 100 (SLabel.pipe 0 .send) ++
  List.replicate 99 (SLabel.pipe 0 .recv) ++
  List.replicate 50 (SLabel.pipe 0 .send) ++
  [.pipe 0 .error] ++ List.replicate 51 (SLabel.pipe 0 .recv) ++
  [.pipe 0 .exit, .pipe 0 .resolve, .main, .main]

/-- Input of the C8 run: stream "a" fails immediately, stream "b"
delivers one record and succeeds. -/
def c8Input : DiscoverInput :=
  { castOk := true, setupErr := none, checkErr := none,
    discover := Except.ok
      [⟨"a", [], some "boom"⟩, ⟨"b", [RecordData.obj []], none⟩] }

/-- Schedule of the C8 run: stream "a"'s producer observes its read
error; stream "b"'s pipeline then runs to completion; only afterwards
does stream "a"'s pending `logger.Fatalf` reach `os.Exit(1)`. -/
def c8Sched : List SLabel :=
  [.main, .pipe 0 .error, .pipe 1 .send, .pipe 1 .finish, .pipe 1 .recv,
   .pipe 1 .exit, .pipe 1 .resolve, .fatalProd 0]

/-- The system state of the C8 input right after the pipelines are
spawned. -/
def c8Mid : Sys :=
  { input := c8Input, mainPC := MainPC.spawned,
    pipes := [pinit "a" [] (some "boom"), pinit "b" [RecordData.obj []] none],
    exited := none, emitted := none, returned := false }

/-- The same state after stream "a"'s producer observed its read error. -/
def c8Mid2 : Sys :=
  { input := c8Input, mainPC := MainPC.spawned,
    pipes := [{ pinit "a" [] (some "boom") with prod := ProdState.errored "boom" },
              pinit "b" [RecordData.obj []] none],
    exited := none, emitted := none, returned := false }

/-- Input of the C5 and C9 witness runs: one stream, one record. -/
def c5Input : DiscoverInput :=
  { castOk := true, setupErr := none, checkErr := none,
    discover := Except.ok [⟨"s", [RecordData.obj []], none⟩] }

/-- Schedule running the single pipeline to completion and the main
goroutine through `group.Wait()` and `LogCatalog`. -/
def c5Sched : List SLabel :=
  [.main, .pipe 0 .send, .pipe 0 .finish, .pipe 0 .recv, .pipe 0 .exit,
   .pipe 0 .resolve, .main, .main]

/-- The pipeline of the C5 witness run, completed. -/
def c5Pipe : Pipe :=
  { name := "s", chan := { buffer := [], closed := true }, pending := [],
    readErr := none, prod := ProdState.finished,
    objects := [RecordData.obj []], count := 1, cons := ConsState.done [] }

/-- Final state of the C5 witness run: catalog emitted. -/
def c5Final : Sys :=
  { input := c5Input, mainPC := MainPC.logged, pipes := [c5Pipe],
    exited := none, emitted := some [("s", [])], returned := false }

/-- Input of the C9 witness run. -/
def c9Input : DiscoverInput :=
  { castOk := true, setupErr := none, checkErr := none,
    discover := Except.ok [⟨"t", [RecordData.obj []], none⟩] }

/-- Schedule of the C9 witness run, through `return nil`. -/
def c9Sched : List SLabel :=
  [.main, .pipe 0 .send, .pipe 0 .finish, .pipe 0 .recv, .pipe 0 .exit,
   .pipe 0 .resolve, .main, .main, .main]

/-- The pipeline of the C9 witness run, completed. -/
def c9Pipe : Pipe :=
  { name := "t", chan := { buffer := [], closed := true }, pending := [],
    readErr := none, prod := ProdState.finished,
    objects := [RecordData.obj []], count := 1, cons := ConsState.done [] }

/-- Final state of the C9 witness run: returned, catalog logged. -/
def c9Final : Sys :=
  { input := c9Input, mainPC := MainPC.returned, pipes := [c9Pipe],
    exited := none, emitted := some [("t", [])], returned := true }

/-- A file system, mapping a full path to the bytes it holds. -/
def FileSys : Type := String → Option (List Nat)

/-- Embedding of `logger.FileLogger` (logger.go lines 97-125).  The
external inputs are explicit: `configFolder` is
`viper.GetString("CONFIG_FOLDER")`; `marshalRes` is the result of
`json.Marshal(content)` (the marshalled bytes, or its error message);
`openErr` is the error of `os.OpenFile(fullPath, O_CREATE|O_WRONLY|
O_TRUNC, 0644)`, if any.  Checks run in source order: empty config
folder, then marshalling, then open.  On success the file at
`filepath.Join(filePath, fileName+fileExtension)` holds exactly the
marshalled bytes (`O_TRUNC`: any previous content is discarded), and no
other file changes.  A write error after a successful open is not
modelled (the file write is one atomic step here). -/
def fileLogger (configFolder : String) (marshalRes : Except String (List Nat))
    (fileName fileExtension : String) (openErr : Option String)
    (fs : FileSys) : Except String FileSys :=
  if configFolder = "" then Except.error "config folder is not set"
  else
    match marshalRes with
    | .error e => Except.error ("failed to marshal content: " ++ e)
    | .ok contentBytes =>
      match openErr with
      | some e => Except.error ("failed to create or open file: " ++ e)
      | none =>
        Except.ok fun path =>
          if path = configFolder ++ "/" ++ fileName ++ fileExtension then
            some contentBytes
          else fs path

theorem pstep_send_inv (p q : Pipe) (h : pstep PLabel.send p = some q) :
    ∃ r rest, p.prod = ProdState.running ∧ p.pending = r :: rest ∧
      p.chan.closed = false ∧ p.chan.buffer.length < recordsPerStream ∧
      q = { p with chan := { p.chan with buffer := p.chan.buffer ++ [r] },
                   pending := rest } := by
  simp only [pstep] at h
  split at h
  next r rest heq1 heq2 =>
    split at h
    next => simp at h
    next hclosed =>
      split at h
      next hlen =>
        refine ⟨r, rest, heq1, heq2, ?_, hlen, ?_⟩
        · simpa using hclosed
        · simp at h; exact h.symm
      next => simp at h
  next => simp at h

theorem pstep_early_inv (p q : Pipe) (h : pstep PLabel.early p = some q) :
    p.prod = ProdState.running ∧ p.pending ≠ [] ∧ p.chan.closed = true ∧
      q = { p with prod := ProdState.finished } := by
  simp only [pstep] at h
  split at h
  next r rest heq1 heq2 =>
    split at h
    next hclosed =>
      refine ⟨heq1, by simp [heq2], hclosed, ?_⟩
      simp at h; exact h.symm
    next => simp at h
  next => simp at h

theorem pstep_finish_inv (p q : Pipe) (h : pstep PLabel.finish p = some q) :
    p.prod = ProdState.running ∧ p.pending = [] ∧ p.readErr = none ∧
      q = { p with prod := ProdState.finished,
                   chan := { p.chan with closed := true } } := by
  simp only [pstep] at h
  split at h
  next heq1 heq2 heq3 =>
    refine ⟨heq1, heq2, heq3, ?_⟩
    simp at h; exact h.symm
  next => simp at h

theorem pstep_error_inv (p q : Pipe) (h : pstep PLabel.error p = some q) :
    ∃ e, p.prod = ProdState.running ∧ p.pending = [] ∧ p.readErr = some e ∧
      q = { p with prod := ProdState.errored e } := by
  simp only [pstep] at h
  split at h
  next e heq1 heq2 heq3 =>
    refine ⟨e, heq1, heq2, heq3, ?_⟩
    simp at h; exact h.symm
  next => simp at h

theorem pstep_recv_inv (p q : Pipe) (h : pstep PLabel.recv p = some q) :
    ∃ r rest, p.cons = ConsState.looping ∧ p.chan.buffer = r :: rest ∧
      q = { p with
        chan := { buffer := rest,
                  closed := p.chan.closed ||
                    decide (p.count + 1 ≥ recordsPerStream) },
        objects := p.objects ++ [r],
        count := p.count + 1 } := by
  simp only [pstep] at h
  split at h
  next r rest heq1 heq2 =>
    refine ⟨r, rest, heq1, heq2, ?_⟩
    simp at h; exact h.symm
  next => simp at h

theorem pstep_exit_inv (p q : Pipe) (h : pstep PLabel.exit p = some q) :
    p.cons = ConsState.looping ∧ p.chan.buffer = [] ∧ p.chan.closed = true ∧
      q = { p with cons := ConsState.resolving } := by
  simp only [pstep] at h
  split at h
  next heq1 heq2 heq3 =>
    refine ⟨heq1, heq2, heq3, ?_⟩
    simp at h; exact h.symm
  next => simp at h

theorem pstep_resolve_inv (p q : Pipe) (h : pstep PLabel.resolve p = some q) :
    p.cons = ConsState.resolving ∧
      q = { p with cons :=
        match typingResolve p.objects with
        | Except.ok pr => ConsState.done pr
        | Except.error e => ConsState.failed e } := by
  simp only [pstep] at h
  split at h
  next heq1 =>
    refine ⟨heq1, ?_⟩
    simp at h; exact h.symm
  next => simp at h

theorem prun_inv (P : Pipe → Prop)
    (hstep : ∀ l p q, P p → pstep l p = some q → P q) :
    ∀ (sched : List PLabel) (p q : Pipe), P p → prun sched p = some q → P q := by
  intro sched
  induction sched with
  | nil =>
    intro p q hp h
    simp only [prun] at h
    cases h
    exact hp
  | cons l ls ih =>
    intro p q hp h
    simp only [prun] at h
    match hl : pstep l p with
    | some r =>
      rw [hl] at h
      exact ih r q (hstep l p r hp hl) h
    | none => rw [hl] at h; simp at h

theorem sampInv_init (name : String) (recs : List RecordData)
    (readErr : Option String) : sampInv recs (pinit name recs readErr) := by
  refine ⟨by simp [pinit], by simp [pinit], ?_, ?_⟩
  · intro h; simp [pinit] at h
  · left; simp [pinit]

theorem sampInv_step (recs : List RecordData) (l : PLabel) (p q : Pipe)
    (hp : sampInv recs p) (h : pstep l p = some q) : sampInv recs q := by
  obtain ⟨h1, h2, h3, h4⟩ := hp
  cases l
  case send =>
    obtain ⟨r, rest, hprod, hpend, hclosed, hlen, rfl⟩ := pstep_send_inv p q h
    refine ⟨?_, by simpa using h2, ?_, ?_⟩
    · simp only at h1 ⊢
      rw [← h1, hpend]
      simp
    · intro hc; simp at hc; rw [hclosed] at hc; simp at hc
    · rcases h4 with h4 | h4
      · left; exact h4
      · rw [h4.1] at hclosed; simp at hclosed
  case early =>
    obtain ⟨hprod, hpend, hclosed, rfl⟩ := pstep_early_inv p q h
    exact ⟨h1, h2, h3, h4⟩
  case finish =>
    obtain ⟨hprod, hpend, herr, rfl⟩ := pstep_finish_inv p q h
    refine ⟨h1, h2, ?_, ?_⟩
    · intro _; left; exact ⟨hpend, herr⟩
    · rcases h4 with h4 | h4
      · left; exact h4
      · right; exact ⟨rfl, h4.2⟩
  case error =>
    obtain ⟨e, hprod, hpend, herr, rfl⟩ := pstep_error_inv p q h
    exact ⟨h1, h2, h3, h4⟩
  case recv =>
    obtain ⟨r, rest, hcons, hbuf, rfl⟩ := pstep_recv_inv p q h
    refine ⟨?_, by simp [h2], ?_, ?_⟩
    · simp only at h1 ⊢
      rw [← h1, hbuf]
      simp
    · intro hc
      simp only [Bool.or_eq_true, decide_eq_true_eq] at hc
      rcases hc with hc | hc
      · rcases h3 hc with h3' | h3'
        · left; exact h3'
        · right; simp; omega
      · right; simpa using hc
    · left; simpa using hcons
  case exit =>
    obtain ⟨hcons, hbuf, hclosed, rfl⟩ := pstep_exit_inv p q h
    exact ⟨h1, h2, h3, Or.inr ⟨hclosed, hbuf⟩⟩
  case resolve =>
    obtain ⟨hcons, rfl⟩ := pstep_resolve_inv p q h
    refine ⟨h1, h2, h3, ?_⟩
    rcases h4 with h4 | h4
    · rw [hcons] at h4; cases h4
    · right; exact h4

/-- Objects are frozen and the consumer never re-enters its range loop
once it has left it. -/
theorem pstep_nonlooping (l : PLabel) (p q : Pipe)
    (h : pstep l p = some q) (hc : p.cons ≠ ConsState.looping) :
    q.objects = p.objects ∧ q.cons ≠ ConsState.looping := by
  cases l
  case send =>
    obtain ⟨r, rest, _, _, _, _, rfl⟩ := pstep_send_inv p q h
    exact ⟨rfl, hc⟩
  case early =>
    obtain ⟨_, _, _, rfl⟩ := pstep_early_inv p q h
    exact ⟨rfl, hc⟩
  case finish =>
    obtain ⟨_, _, _, rfl⟩ := pstep_finish_inv p q h
    exact ⟨rfl, hc⟩
  case error =>
    obtain ⟨e, _, _, _, rfl⟩ := pstep_error_inv p q h
    exact ⟨rfl, hc⟩
  case recv =>
    obtain ⟨r, rest, hcons, _, rfl⟩ := pstep_recv_inv p q h
    exact absurd hcons hc
  case exit =>
    obtain ⟨hcons, _, _, rfl⟩ := pstep_exit_inv p q h
    exact absurd hcons hc
  case resolve =>
    obtain ⟨hcons, rfl⟩ := pstep_resolve_inv p q h
    refine ⟨rfl, ?_⟩
    simp only
    match typingResolve p.objects with
    | .ok pr => intro hx; cases hx
    | .error e => intro hx; cases hx

theorem sstep_main_inv (s t : Sys) (h : sstep SLabel.main s = some t) :
    s.exited = none ∧ mainStep s = some t := by
  simp only [sstep] at h
  split at h
  · simp at h
  · next hex =>
    refine ⟨?_, h⟩
    cases hx : s.exited with
    | none => rfl
    | some m => rw [hx] at hex; simp at hex

theorem sstep_pipe_inv (s t : Sys) (i : Nat) (pl : PLabel)
    (h : sstep (SLabel.pipe i pl) s = some t) :
    s.exited = none ∧ ∃ p q, s.pipes[i]? = some p ∧ pstep pl p = some q ∧
      t = { s with pipes := s.pipes.set i q } := by
  simp only [sstep] at h
  split at h
  · simp at h
  · next hex =>
    refine ⟨Option.not_isSome_iff_eq_none.mp hex, ?_⟩
    split at h
    next p hp =>
      match hq : pstep pl p with
      | some q =>
        rw [hq] at h
        simp at h
        exact ⟨p, q, hp, hq, h.symm⟩
      | none => rw [hq] at h; simp at h
    next => simp at h

theorem sstep_fatalProd_inv (s t : Sys) (i : Nat)
    (h : sstep (SLabel.fatalProd i) s = some t) :
    s.exited = none ∧ ∃ p e, s.pipes[i]? = some p ∧ p.prod = ProdState.errored e ∧
      t = { s with exited := some (readFatalMsg p.name e) } := by
  simp only [sstep] at h
  split at h
  · simp at h
  · next hex =>
    refine ⟨Option.not_isSome_iff_eq_none.mp hex, ?_⟩
    split at h
    next p hp =>
      split at h
      next e hprod =>
        simp at h
        exact ⟨p, e, hp, hprod, h.symm⟩
      next => simp at h
    next => simp at h

theorem sstep_fatalCons_inv (s t : Sys) (i : Nat)
    (h : sstep (SLabel.fatalCons i) s = some t) :
    s.exited = none ∧ ∃ p e, s.pipes[i]? = some p ∧ p.cons = ConsState.failed e ∧
      t = { s with exited := some e } := by
  simp only [sstep] at h
  split at h
  · simp at h
  · next hex =>
    refine ⟨Option.not_isSome_iff_eq_none.mp hex, ?_⟩
    split at h
    next p hp =>
      split at h
      next e hcons =>
        simp at h
        exact ⟨p, e, hp, hcons, h.symm⟩
      next => simp at h
    next => simp at h

theorem srun_inv (P : Sys → Prop)
    (hstep : ∀ l s t, P s → sstep l s = some t → P t) :
    ∀ (sched : List SLabel) (s t : Sys), P s → srun sched s = some t → P t := by
  intro sched
  induction sched with
  | nil =>
    intro s t hs h
    simp only [srun] at h
    cases h
    exact hs
  | cons l ls ih =>
    intro s t hs h
    simp only [srun] at h
    match hl : sstep l s with
    | some u =>
      rw [hl] at h
      exact ih u t (hstep l s u hs hl) h
    | none => rw [hl] at h; simp at h

theorem map_set_stable {α β : Type} (l : List α) (i : Nat) (p q : α)
    (f : α → β) (hp : l[i]? = some p) (hfq : f q = f p) :
    (l.set i q).map f = l.map f := by
  induction l generalizing i with
  | nil => simp at hp
  | cons a rest ih =>
    cases i with
    | zero =>
      simp only [List.getElem?_cons_zero, Option.some.injEq] at hp
      subst hp
      simp [List.set, hfq]
    | succ n =>
      simp at hp
      simp [List.set, ih n hp]

theorem unwrapCatalog_eq_map (pipes : List Pipe) :
    unwrapCatalog pipes = pipes.map (fun p => (p.name, consProps p.cons)) := by
  have haux : ∀ (ps : List Pipe) (acc : List (String × PropertySchema)),
      ps.foldl (fun acc p => acc ++ [(p.name, consProps p.cons)]) acc =
        acc ++ ps.map (fun p => (p.name, consProps p.cons)) := by
    intro ps
    induction ps with
    | nil => intro acc; simp
    | cons p rest ih => intro acc; simp [ih]
  simpa [unwrapCatalog] using haux pipes []

theorem pstep_frame (l : PLabel) (p q : Pipe) (h : pstep l p = some q) :
    q.name = p.name ∧ (consDoneB p.cons = true → q.cons = p.cons) := by
  cases l
  case send =>
    obtain ⟨r, rest, _, _, _, _, rfl⟩ := pstep_send_inv p q h; exact ⟨rfl, fun _ => rfl⟩
  case early =>
    obtain ⟨_, _, _, rfl⟩ := pstep_early_inv p q h; exact ⟨rfl, fun _ => rfl⟩
  case finish =>
    obtain ⟨_, _, _, rfl⟩ := pstep_finish_inv p q h; exact ⟨rfl, fun _ => rfl⟩
  case error =>
    obtain ⟨e, _, _, _, rfl⟩ := pstep_error_inv p q h; exact ⟨rfl, fun _ => rfl⟩
  case recv =>
    obtain ⟨r, rest, hcons, _, rfl⟩ := pstep_recv_inv p q h
    exact ⟨rfl, fun _ => rfl⟩
  case exit =>
    obtain ⟨hcons, _, _, rfl⟩ := pstep_exit_inv p q h
    refine ⟨rfl, fun hd => ?_⟩
    rw [hcons] at hd; simp [consDoneB] at hd
  case resolve =>
    obtain ⟨hcons, rfl⟩ := pstep_resolve_inv p q h
    refine ⟨rfl, fun hd => ?_⟩
    rw [hcons] at hd; simp [consDoneB] at hd

/-- Characterization of one main-goroutine step: the prelude either
fails some check (and a `logger.Fatal` becomes pending) or spawns one
pipeline per discovered stream; a pending fatal exits the process; the
join barrier passes only when every consumer has called `group.Done()`;
the catalog is assembled and emitted right after the barrier; and the
only return is `return nil` right after `LogCatalog`. -/
theorem mainStep_inv (s t : Sys) (h : mainStep s = some t) :
    (∃ msg, s.mainPC = MainPC.start ∧
      t = { s with mainPC := MainPC.fatalPending msg }) ∨
    (∃ ss, s.mainPC = MainPC.start ∧ s.input.discover = Except.ok ss ∧
      ss ≠ [] ∧
      t = { s with mainPC := MainPC.spawned,
                   pipes := ss.map fun sd => pinit sd.name sd.recs sd.readErr }) ∨
    (∃ e, s.mainPC = MainPC.fatalPending e ∧ t = { s with exited := some e }) ∨
    (s.mainPC = MainPC.spawned ∧
      s.pipes.all (fun p => consDoneB p.cons) = true ∧
      t = { s with mainPC := MainPC.waited }) ∨
    (s.mainPC = MainPC.waited ∧
      t = { s with mainPC := MainPC.logged,
                   emitted := some (unwrapCatalog s.pipes) }) ∨
    (s.mainPC = MainPC.logged ∧
      t = { s with mainPC := MainPC.returned, returned := true }) := by
  match hpc : s.mainPC with
  | .start =>
    simp only [mainStep, hpc] at h
    split at h
    · cases h
      exact Or.inl ⟨typeCastMsg, rfl, rfl⟩
    · split at h
      next e heq =>
        cases h
        exact Or.inl ⟨e, rfl, rfl⟩
      next =>
        split at h
        next e heq =>
          cases h
          exact Or.inl ⟨e, rfl, rfl⟩
        next =>
          split at h
          next e heq =>
            cases h
            exact Or.inl ⟨e, rfl, rfl⟩
          next ss heq =>
            split at h
            next hemp =>
              cases h
              exact Or.inl ⟨emptyStreamsMsg, rfl, rfl⟩
            next hemp =>
              cases h
              refine Or.inr (Or.inl ⟨ss, rfl, heq, ?_, rfl⟩)
              intro hc
              rw [hc] at hemp
              simp at hemp
  | .fatalPending e =>
    simp only [mainStep, hpc] at h
    cases h
    exact Or.inr (Or.inr (Or.inl ⟨e, rfl, rfl⟩))
  | .spawned =>
    simp only [mainStep, hpc] at h
    split at h
    next hall =>
      cases h
      exact Or.inr (Or.inr (Or.inr (Or.inl ⟨rfl, hall, rfl⟩)))
    next => simp at h
  | .waited =>
    simp only [mainStep, hpc] at h
    cases h
    exact Or.inr (Or.inr (Or.inr (Or.inr (Or.inl ⟨rfl, rfl⟩))))
  | .logged =>
    simp only [mainStep, hpc] at h
    cases h
    exact Or.inr (Or.inr (Or.inr (Or.inr (Or.inr ⟨rfl, rfl⟩))))
  | .returned =>
    simp [mainStep, hpc] at h

theorem emptyDiscInv_step (l : SLabel) (s t : Sys) (hs : emptyDiscInv s)
    (h : sstep l s = some t) : emptyDiscInv t := by
  obtain ⟨hcast, hsetup, hcheck, hdisc, hpipes, hemit, hret, hpc, hex⟩ := hs
  cases l
  case main =>
    obtain ⟨hexit, hm⟩ := sstep_main_inv s t h
    rcases hpc with hpc | hpc
    · rw [mainStep, hpc, hcast] at hm
      simp only [Bool.true_eq_false, if_false] at hm
      rw [hsetup, hcheck, hdisc] at hm
      simp only [List.isEmpty_nil, if_true] at hm
      cases hm
      exact ⟨hcast, hsetup, hcheck, hdisc, hpipes, hemit, hret, Or.inr rfl, fun m hm2 => hex m hm2⟩
    · rw [mainStep, hpc] at hm
      cases hm
      refine ⟨hcast, hsetup, hcheck, hdisc, hpipes, hemit, hret, Or.inr rfl, ?_⟩
      intro m hm2
      simp at hm2
      exact hm2.symm
  case pipe i pl =>
    obtain ⟨_, p, q, hp, _, _⟩ := sstep_pipe_inv s t i pl h
    rw [hpipes] at hp
    simp at hp
  case fatalProd i =>
    obtain ⟨_, p, e, hp, _, _⟩ := sstep_fatalProd_inv s t i h
    rw [hpipes] at hp
    simp at hp
  case fatalCons i =>
    obtain ⟨_, p, e, hp, _, _⟩ := sstep_fatalCons_inv s t i h
    rw [hpipes] at hp
    simp at hp

theorem returnInv_step (l : SLabel) (s t : Sys) (hs : returnInv s)
    (h : sstep l s = some t) : returnInv t := by
  obtain ⟨h1, h2⟩ := hs
  cases l
  case main =>
    obtain ⟨hexit, hm⟩ := sstep_main_inv s t h
    rcases mainStep_inv s t hm with
      ⟨msg, hpc, rfl⟩ | ⟨ss, hpc, _, _, rfl⟩ | ⟨e, hpc, rfl⟩ |
      ⟨hpc, _, rfl⟩ | ⟨hpc, rfl⟩ | ⟨hpc, rfl⟩
    · refine ⟨fun hr => ?_, fun hl => ?_⟩
      · rw [hpc] at h1; exact absurd (h1 hr) (by intro hx; cases hx)
      · rcases hl with hl | hl <;> cases hl
    · refine ⟨fun hr => ?_, fun hl => ?_⟩
      · rw [hpc] at h1; exact absurd (h1 hr) (by intro hx; cases hx)
      · rcases hl with hl | hl <;> cases hl
    · refine ⟨fun hr => ?_, fun hl => ?_⟩
      · rw [hpc] at h1; exact absurd (h1 hr) (by intro hx; cases hx)
      · rcases hl with hl | hl <;> (rw [hpc] at hl; cases hl)
    · refine ⟨fun hr => ?_, fun hl => ?_⟩
      · rw [hpc] at h1; exact absurd (h1 hr) (by intro hx; cases hx)
      · rcases hl with hl | hl <;> cases hl
    · refine ⟨fun hr => ?_, fun hl => ?_⟩
      · rw [hpc] at h1; exact absurd (h1 hr) (by intro hx; cases hx)
      · simp
    · refine ⟨fun hr => rfl, fun hl => ?_⟩
      · exact h2 (Or.inl hpc)
  case pipe i pl =>
    obtain ⟨_, p, q, hp, hq, rfl⟩ := sstep_pipe_inv s t i pl h
    exact ⟨h1, h2⟩
  case fatalProd i =>
    obtain ⟨_, p, e, hp, hprod, rfl⟩ := sstep_fatalProd_inv s t i h
    exact ⟨h1, h2⟩
  case fatalCons i =>
    obtain ⟨_, p, e, hp, hcons, rfl⟩ := sstep_fatalCons_inv s t i h
    exact ⟨h1, h2⟩

theorem catInv_step (ss : List SDef) (l : SLabel) (s t : Sys)
    (hs : catInv ss s) (h : sstep l s = some t) : catInv ss t := by
  obtain ⟨hdisc, hA, hB, hC⟩ := hs
  cases l
  case main =>
    obtain ⟨hexit, hm⟩ := sstep_main_inv s t h
    rcases mainStep_inv s t hm with
      ⟨msg, hpc, rfl⟩ | ⟨ss2, hpc, hdisc2, hne, rfl⟩ | ⟨e, hpc, rfl⟩ |
      ⟨hpc, hall, rfl⟩ | ⟨hpc, rfl⟩ | ⟨hpc, rfl⟩
    · refine ⟨hdisc, fun hl => ?_, fun hl => ?_, fun cat hcat => ?_⟩
      · rcases hl with hl | hl | hl | hl <;> cases hl
      · rcases hl with hl | hl | hl <;> cases hl
      · have := (hC cat hcat).1
        rcases this with hx | hx <;> (rw [hpc] at hx; cases hx)
    · have hss : ss2 = ss := by
        rw [hdisc] at hdisc2
        exact (Except.ok.inj hdisc2).symm
      subst hss
      refine ⟨hdisc, fun _ => ?_, fun hl => ?_, fun cat hcat => ?_⟩
      · simp [pinit, Function.comp]
      · rcases hl with hl | hl | hl <;> cases hl
      · have := (hC cat hcat).1
        rcases this with hx | hx <;> (rw [hpc] at hx; cases hx)
    · exact ⟨hdisc, hA, hB, hC⟩
    · refine ⟨hdisc, fun _ => hA (Or.inl hpc), fun _ => ?_, fun cat hcat => ?_⟩
      · intro p hp
        rw [List.all_eq_true] at hall
        exact hall p hp
      · have := (hC cat hcat).1
        rcases this with hx | hx <;> (rw [hpc] at hx; cases hx)
    · refine ⟨hdisc, fun _ => hA (Or.inr (Or.inl hpc)),
        fun _ => hB (Or.inl hpc), fun cat hcat => ?_⟩
      simp only [Option.some.injEq] at hcat
      refine ⟨Or.inl rfl, ?_⟩
      rw [← hcat, unwrapCatalog_eq_map]
    · refine ⟨hdisc, fun _ => hA (Or.inr (Or.inr (Or.inl hpc))),
        fun _ => hB (Or.inr (Or.inl hpc)), fun cat hcat => ?_⟩
      exact ⟨Or.inr rfl, (hC cat hcat).2⟩
  case pipe i pl =>
    obtain ⟨_, p, q, hp, hq, rfl⟩ := sstep_pipe_inv s t i pl h
    obtain ⟨hname, hdone⟩ := pstep_frame pl p q hq
    have hpmem : p ∈ s.pipes := by
      have := List.getElem?_eq_some_iff.mp hp
      obtain ⟨hlt, hget⟩ := this
      exact hget ▸ List.getElem_mem hlt
    refine ⟨hdisc, fun hl => ?_, fun hl => ?_, fun cat hcat => ?_⟩
    · rw [map_set_stable s.pipes i p q Pipe.name hp hname]
      exact hA hl
    · intro r hr
      rcases List.mem_or_eq_of_mem_set hr with hr2 | hr2
      · exact hB hl r hr2
      · subst hr2
        have hpd := hB hl p hpmem
        rw [hdone hpd]
        exact hpd
    · obtain ⟨hpcL, hcatEq⟩ := hC cat hcat
      have hBdone : ∀ r ∈ s.pipes, consDoneB r.cons = true := by
        rcases hpcL with hx | hx
        · exact hB (Or.inr (Or.inl hx))
        · exact hB (Or.inr (Or.inr hx))
      refine ⟨hpcL, ?_⟩
      rw [map_set_stable s.pipes i p q _ hp ?_]
      · exact hcatEq
      · have hpd := hBdone p hpmem
        rw [hname, hdone hpd]
  case fatalProd i =>
    obtain ⟨_, p, e, hp, hprod, rfl⟩ := sstep_fatalProd_inv s t i h
    exact ⟨hdisc, hA, hB, hC⟩
  case fatalCons i =>
    obtain ⟨_, p, e, hp, hcons, rfl⟩ := sstep_fatalCons_inv s t i h
    exact ⟨hdisc, hA, hB, hC⟩

theorem mem_foldl_dedup {α : Type} [DecidableEq α] (l acc : List α) (x : α)
    (h : x ∈ acc ∨ x ∈ l) :
    x ∈ l.foldl (fun acc a => if a ∈ acc then acc else acc ++ [a]) acc := by
  induction l generalizing acc with
  | nil => simp only [List.foldl_nil]; rcases h with h | h; exact h; simp at h
  | cons b rest ih =>
    simp only [List.foldl_cons]
    apply ih
    rcases h with h | h
    · left
      by_cases hb : b ∈ acc
      · rwa [if_pos hb]
      · rw [if_neg hb]; simp [h]
    · rcases List.mem_cons.mp h with h | h
      · left
        subst h
        by_cases hb : x ∈ acc
        · rwa [if_pos hb]
        · rw [if_neg hb]; simp
      · right; exact h

theorem mem_dedupFirst_of_mem {α : Type} [DecidableEq α] (l : List α) (a : α)
    (h : a ∈ l) : a ∈ dedupFirst l :=
  mem_foldl_dedup l [] a (Or.inr h)

theorem nodup_foldl_dedup {α : Type} [DecidableEq α] (l acc : List α)
    (h : acc.Nodup) :
    (l.foldl (fun acc a => if a ∈ acc then acc else acc ++ [a]) acc).Nodup := by
  induction l generalizing acc with
  | nil => simpa using h
  | cons b rest ih =>
    simp only [List.foldl_cons]
    apply ih
    by_cases hb : b ∈ acc
    · rwa [if_pos hb]
    · rw [if_neg hb]
      simp [List.nodup_append, h, hb]

theorem dedupFirst_nodup {α : Type} [DecidableEq α] (l : List α) :
    (dedupFirst l).Nodup :=
  nodup_foldl_dedup l [] (by simp)

theorem nodup_two_support {α : Type} (l : List α) (a b : α) (hab : a ≠ b)
    (hnd : l.Nodup) (hsub : ∀ k ∈ l, k = a ∨ k = b) (ha : a ∈ l)
    (hb : b ∈ l) : l = [a, b] ∨ l = [b, a] := by
  match l with
  | [] => simp at ha
  | [x] =>
    simp only [List.mem_singleton] at ha hb
    exact absurd (ha.trans hb.symm) hab
  | [x, y] =>
    have hx := hsub x (by simp)
    have hy := hsub y (by simp)
    have hxy : x ≠ y := by intro h; rw [h] at hnd; simp at hnd
    rcases hx with hx | hx <;> rcases hy with hy | hy
    · exact absurd (hx.trans hy.symm) hxy
    · left; rw [hx, hy]
    · right; rw [hx, hy]
    · exact absurd (hx.trans hy.symm) hxy
  | x :: y :: z :: more =>
    exfalso
    simp only [List.nodup_cons, List.mem_cons] at hnd
    have hx := hsub x (by simp)
    have hy := hsub y (by simp)
    have hz := hsub z (by simp)
    have hxy : x ≠ y := fun h => hnd.1 (Or.inl h)
    have hxz : x ≠ z := fun h => hnd.1 (Or.inr (Or.inl h))
    have hyz : y ≠ z := fun h => hnd.2.1 (Or.inl h)
    rcases hx with hx | hx <;> rcases hy with hy | hy <;>
      rcases hz with hz | hz <;> (subst hx; subst hy; subst hz; simp_all)

theorem kindsOf_int_num (occs : List (Option RecordData))
    (hnum : ∀ v ∈ nonNulls occs, ∃ q, v = RecordData.num q)
    (hint : ∃ q, RecordData.num q ∈ nonNulls occs ∧ q.den = 1)
    (hfrac : ∃ q, RecordData.num q ∈ nonNulls occs ∧ q.den ≠ 1) :
    kindsOf occs = [VKind.kint, VKind.knum] ∨
      kindsOf occs = [VKind.knum, VKind.kint] := by
  obtain ⟨qi, hqi, hqid⟩ := hint
  obtain ⟨qf, hqf, hqfd⟩ := hfrac
  have hki : VKind.kint ∈ kindsOf occs := by
    apply mem_dedupFirst_of_mem
    simp only [List.mem_map]
    exact ⟨RecordData.num qi, hqi, by simp [kindOf, hqid]⟩
  have hkn : VKind.knum ∈ kindsOf occs := by
    apply mem_dedupFirst_of_mem
    simp only [List.mem_map]
    exact ⟨RecordData.num qf, hqf, by simp [kindOf, hqfd]⟩
  have hsub : ∀ k ∈ kindsOf occs, k = VKind.kint ∨ k = VKind.knum := by
    intro k hk
    have hk2 := mem_dedupFirst _ _ hk
    simp only [List.mem_map] at hk2
    obtain ⟨v, hv, hkv⟩ := hk2
    obtain ⟨q, rfl⟩ := hnum v hv
    by_cases hd : q.den = 1
    · left; rw [← hkv]; simp [kindOf, hd]
    · right; rw [← hkv]; simp [kindOf, hd]
  exact nodup_two_support (kindsOf occs) VKind.kint VKind.knum
    (by intro h; cases h) (dedupFirst_nodup _) hsub hki hkn

theorem resolveOccs_int_num (occs : List (Option RecordData))
    (hnum : ∀ v ∈ nonNulls occs, ∃ q, v = RecordData.num q)
    (hint : ∃ q, RecordData.num q ∈ nonNulls occs ∧ q.den = 1)
    (hfrac : ∃ q, RecordData.num q ∈ nonNulls occs ∧ q.den ≠ 1) :
    resolveOccs occs = (TypeDesc.number, occs.any isNullOcc) := by
  rcases kindsOf_int_num occs hnum hint hfrac with hk | hk <;>
    (rw [resolveOccs]; simp only [hk]; norm_num; simp)

set_option maxRecDepth 10000 in
/-- C1: the claim fails on the code.  A stream whose source yields
101 ≥ cap records has a schedule under which the consumer's range loop —
which keeps draining a closed channel's buffered records, and whose
`count >= recordsPerStream` check only re-closes the already-closed
channel — retains 101 records and completes, so the retained SampleSet
exceeds the 100-record cap instead of being exactly 100. -/
theorem sampler_overshoots_cap_run :
    recordsPerStream ≤ c1Source.length ∧
    (prun c1Sched (pinit "s" c1Source none)).map
      (fun p => (p.objects.length, consDoneB p.cons)) = some (101, true) ∧
    recordsPerStream < 101 := by
  refine ⟨by decide, by rfl, by decide⟩

set_option maxRecDepth 40000 in
/-- C2: the claim fails on the code.  One stream's pipeline fails (its
producer observed a `StreamReadError` and its `logger.Fatalf` is
pending), yet under this schedule the run reaches `LogCatalog` and emits
a full catalog before the pending `os.Exit(1)` fires: the failing
stream's consumer completed on its own (it had its cap of records), so
`group.Wait()` passed. -/
theorem catalog_emitted_despite_read_error_run :
    (srun c2Sched (sinit c2Input)).map
      (fun s => (s.emitted, s.pipes[0]?.map fun p => isProdErroredB p.prod,
                 s.exited)) =
      some (some [("a", []), ("b", [])], some true, none) := by
  rfl

/-- C3: if the prelude succeeds but the connector's stream enumeration
returns an empty list, then in every reachable state of the run no
sampling pipeline has been spawned, no record has been read, nothing has
been emitted or returned, and the only possible process exit is
`logger.Fatal("no streams found in connector")`; moreover the run does
exit that way (under the two-step main schedule), before any pipeline
exists. -/
theorem empty_discovery_fails_before_sampling (input : DiscoverInput)
    (sched : List SLabel) (s : Sys)
    (hcast : input.castOk = true) (hsetup : input.setupErr = none)
    (hcheck : input.checkErr = none) (hdisc : input.discover = Except.ok [])
    (hrun : srun sched (sinit input) = some s) :
    (s.pipes = [] ∧ s.emitted = none ∧ s.returned = false ∧
      ∀ m, s.exited = some m → m = emptyStreamsMsg) ∧
    ∃ t, srun [SLabel.main, SLabel.main] (sinit input) = some t ∧
      t.exited = some emptyStreamsMsg ∧ t.pipes = [] := by
  have hinit : emptyDiscInv (sinit input) := by
    refine ⟨hcast, hsetup, hcheck, hdisc, rfl, rfl, rfl, Or.inl rfl, ?_⟩
    intro m hm; simp [sinit] at hm
  have hinv := srun_inv emptyDiscInv emptyDiscInv_step sched (sinit input) s hinit hrun
  obtain ⟨_, _, _, _, hpipes, hemit, hret, _, hex⟩ := hinv
  refine ⟨⟨hpipes, hemit, hret, hex⟩, ?_⟩
  use { input := input, mainPC := MainPC.fatalPending emptyStreamsMsg,
        pipes := [], exited := some emptyStreamsMsg, emitted := none,
        returned := false }
  refine ⟨?_, rfl, rfl⟩
  simp only [srun, sstep, sinit, mainStep, Option.isSome_none, hcast, hsetup,
    hcheck, hdisc]
  simp [mainStep]

/-- Witness for C3: the canonical empty-discovery input. -/
theorem empty_discovery_fails_before_sampling_witness :
    ((sinit ({ castOk := true, setupErr := none, checkErr := none,
               discover := Except.ok [] } : DiscoverInput)).pipes = []) ∧
    ∃ t, srun [SLabel.main, SLabel.main]
        (sinit ({ castOk := true, setupErr := none, checkErr := none,
                  discover := Except.ok [] } : DiscoverInput)) = some t ∧
      t.exited = some emptyStreamsMsg ∧ t.pipes = [] := by
  have := empty_discovery_fails_before_sampling
    ({ castOk := true, setupErr := none, checkErr := none,
       discover := Except.ok [] } : DiscoverInput)
    [] _ rfl rfl rfl rfl rfl
  exact ⟨this.1.1, this.2⟩

/-- C4: a stream whose source yields fewer than `recordsPerStream`
records and whose read succeeds retains, at the moment its range loop
ends (and hence when `typing.Resolve` runs), exactly the full source
sequence, in source order, with nothing added or dropped — under every
schedule. -/
theorem small_source_retained_in_full (name : String) (recs : List RecordData)
    (readErr : Option String) (sched : List PLabel) (p : Pipe)
    (hlen : recs.length < recordsPerStream)
    (hrun : prun sched (pinit name recs readErr) = some p)
    (hdone : p.cons ≠ ConsState.looping) :
    p.objects = recs := by
  have hinv := prun_inv (sampInv recs) (fun l a b => sampInv_step recs l a b)
    sched (pinit name recs readErr) p (sampInv_init name recs readErr) hrun
  obtain ⟨h1, h2, h3, h4⟩ := hinv
  rcases h4 with h4 | ⟨hclosed, hbuf⟩
  · exact absurd h4 hdone
  · have hlen2 : p.objects.length ≤ recs.length := by
      have := congrArg List.length h1
      simp at this
      omega
    rcases h3 hclosed with ⟨hpend, _⟩ | hcap
    · rw [hbuf, hpend] at h1
      simpa using h1
    · omega

/-- Witness for C4: a 1-record stream, run to completion. -/
theorem small_source_retained_in_full_witness :
    ([RecordData.obj []] : List RecordData).length < recordsPerStream ∧
    prun [PLabel.send, PLabel.finish, PLabel.recv, PLabel.exit, PLabel.resolve]
        (pinit "s" [RecordData.obj []] none) =
      some { name := "s", chan := { buffer := [], closed := true },
             pending := [], readErr := none, prod := ProdState.finished,
             objects := [RecordData.obj []], count := 1,
             cons := ConsState.done [] } ∧
    ({ name := "s", chan := { buffer := [], closed := true },
       pending := [], readErr := none, prod := ProdState.finished,
       objects := [RecordData.obj []], count := 1,
       cons := ConsState.done [] } : Pipe).objects = [RecordData.obj []] := by
  refine ⟨by decide, by rfl, ?_⟩
  exact small_source_retained_in_full "s" [RecordData.obj []] none
    [PLabel.send, PLabel.finish, PLabel.recv, PLabel.exit, PLabel.resolve] _
    (by decide) (by rfl) (by intro h; cases h)

/-- C5: under every schedule of a run whose discovery returned the
stream list `ss`, whenever a catalog is emitted it holds exactly one
(name, PropertySchema) entry per discovered stream, in the order the
connector's enumeration returned them; and at (and after) emission every
stream's pipeline has completed (the join barrier `group.Wait()` of line
89 precedes `LogCatalog` on line 97). -/
theorem catalog_after_barrier_in_order (input : DiscoverInput)
    (ss : List SDef) (sched : List SLabel) (s : Sys)
    (cat : List (String × PropertySchema))
    (hdisc : input.discover = Except.ok ss)
    (hrun : srun sched (sinit input) = some s)
    (hemit : s.emitted = some cat) :
    cat.map Prod.fst = ss.map SDef.name ∧ cat.length = ss.length ∧
    cat = s.pipes.map (fun p => (p.name, consProps p.cons)) ∧
    ∀ p ∈ s.pipes, consDoneB p.cons = true := by
  have hinit : catInv ss (sinit input) := by
    refine ⟨hdisc, fun hl => ?_, fun hl => ?_, fun cat2 hcat2 => ?_⟩
    · rcases hl with hl | hl | hl | hl <;> simp [sinit] at hl
    · rcases hl with hl | hl | hl <;> simp [sinit] at hl
    · simp [sinit] at hcat2
  have hinv := srun_inv (catInv ss) (catInv_step ss) sched (sinit input) s hinit hrun
  obtain ⟨_, hA, hB, hC⟩ := hinv
  obtain ⟨hpcL, hcatEq⟩ := hC cat hemit
  have hnames : s.pipes.map Pipe.name = ss.map SDef.name := by
    rcases hpcL with hx | hx
    · exact hA (Or.inr (Or.inr (Or.inl hx)))
    · exact hA (Or.inr (Or.inr (Or.inr hx)))
  have hdone : ∀ p ∈ s.pipes, consDoneB p.cons = true := by
    rcases hpcL with hx | hx
    · exact hB (Or.inr (Or.inl hx))
    · exact hB (Or.inr (Or.inr hx))
  refine ⟨?_, ?_, hcatEq, hdone⟩
  · rw [hcatEq, ← hnames]
    simp [Function.comp]
  · rw [hcatEq]
    have := congrArg List.length hnames
    simpa using this

/-- Witness for C5: the one-stream run emits the catalog
`[("s", [])]`, whose names are the enumeration's names. -/
theorem catalog_after_barrier_in_order_witness :
    ([("s", ([] : PropertySchema))]).map Prod.fst =
      ([(⟨"s", [RecordData.obj []], none⟩ : SDef)]).map SDef.name :=
  (catalog_after_barrier_in_order c5Input
    [⟨"s", [RecordData.obj []], none⟩] c5Sched c5Final [("s", [])]
    rfl (by rfl) rfl).1

/-- C6: once a stream's consumer has left its range loop (in particular
once `typing.Resolve` has started), the channel is closed and fully
drained, and no later step of the pipeline ever changes the sampled
buffer: sampling and resolution never interleave. -/
theorem no_append_after_resolution_starts (name : String)
    (recs : List RecordData) (readErr : Option String) (sched : List PLabel)
    (p : Pipe) (hrun : prun sched (pinit name recs readErr) = some p)
    (hne : p.cons ≠ ConsState.looping) :
    p.chan.closed = true ∧ p.chan.buffer = [] ∧
      ∀ (sched' : List PLabel) (q : Pipe), prun sched' p = some q →
        q.objects = p.objects := by
  have hinv := prun_inv (sampInv recs) (fun l a b => sampInv_step recs l a b)
    sched (pinit name recs readErr) p (sampInv_init name recs readErr) hrun
  obtain ⟨_, _, _, h4⟩ := hinv
  rcases h4 with h4 | ⟨hclosed, hbuf⟩
  · exact absurd h4 hne
  · refine ⟨hclosed, hbuf, ?_⟩
    intro sched' q hrun'
    have := prun_inv (fun r => r.objects = p.objects ∧ r.cons ≠ ConsState.looping)
      (fun l a b hab hstep => by
        obtain ⟨ho, hc⟩ := hab
        obtain ⟨ho', hc'⟩ := pstep_nonlooping l a b hstep hc
        exact ⟨ho'.trans ho, hc'⟩)
      sched' p q ⟨rfl, hne⟩ hrun'
    exact this.1

/-- Witness for C6: a pipeline that has entered resolution, stepped
through `resolve`, keeps its 1-record buffer unchanged. -/
theorem no_append_after_resolution_starts_witness :
    prun [PLabel.send, PLabel.finish, PLabel.recv, PLabel.exit]
        (pinit "w" [RecordData.obj []] none) =
      some { name := "w", chan := { buffer := [], closed := true },
             pending := [], readErr := none, prod := ProdState.finished,
             objects := [RecordData.obj []], count := 1,
             cons := ConsState.resolving } ∧
    ({ name := "w", chan := { buffer := [], closed := true },
       pending := [], readErr := none, prod := ProdState.finished,
       objects := [RecordData.obj []], count := 1,
       cons := ConsState.resolving } : Pipe).chan.closed = true := by
  refine ⟨by rfl, ?_⟩
  exact (no_append_after_resolution_starts "w" [RecordData.obj []] none
    [PLabel.send, PLabel.finish, PLabel.recv, PLabel.exit] _
    (by rfl) (by intro h; cases h)).1

/-- C7: for any field of any sample whose non-null occurrences are all
numeric, at least one integer-kinded (no fractional part) and at least
one number-kinded (fractional), resolution widens the field to the
single type `number` — never a union of integer and number — with the
nullable flag from rule 2 (spec §4.3 rule 4); and in particular the
records {a:1}, {a:1.5} resolve field a to `number`, not nullable. -/
theorem int_and_number_widen_to_number :
    (∀ (occs : List (Option RecordData)),
      (∀ v ∈ nonNulls occs, ∃ q, v = RecordData.num q) →
      (∃ q, RecordData.num q ∈ nonNulls occs ∧ q.den = 1) →
      (∃ q, RecordData.num q ∈ nonNulls occs ∧ q.den ≠ 1) →
      resolveOccs occs = (TypeDesc.number, occs.any isNullOcc)) ∧
    typingResolve
      [RecordData.obj [("a", RecordData.num 1)],
       RecordData.obj [("a", RecordData.num (1.5 : ℚ))]] =
      Except.ok [("a", TypeDesc.number, false)] := by
  refine ⟨resolveOccs_int_num, ?_⟩
  have hnn : nonNulls [some (RecordData.num 1),
      some (RecordData.num (1.5 : ℚ))] =
      [RecordData.num 1, RecordData.num (1.5 : ℚ)] := rfl
  have hro := resolveOccs_int_num
    [some (RecordData.num 1), some (RecordData.num (1.5 : ℚ))]
    (by
      rw [hnn]
      intro v hv
      rcases List.mem_cons.mp hv with hv | hv
      · exact ⟨1, hv⟩
      · simp only [List.mem_singleton] at hv
        exact ⟨(1.5 : ℚ), hv⟩)
    (by
      refine ⟨1, ?_, ?_⟩
      · rw [hnn]; simp
      · norm_num)
    (by
      refine ⟨(1.5 : ℚ), ?_, ?_⟩
      · rw [hnn]; simp
      · norm_num)
  have hstep : typingResolve
      [RecordData.obj [("a", RecordData.num 1)],
       RecordData.obj [("a", RecordData.num (1.5 : ℚ))]] =
      Except.ok [("a", resolveOccs [some (RecordData.num 1),
        some (RecordData.num (1.5 : ℚ))])] := rfl
  rw [hstep, hro]
  rfl

/-- Witness for C7: the occurrences 1 (integer-kinded) and 3/2
(number-kinded) resolve to `number`. -/
theorem int_and_number_widen_to_number_witness :
    resolveOccs [some (RecordData.num 1),
      some (RecordData.num (Rat.mk' 3 2 (by decide) (by decide)))] =
      (TypeDesc.number, false) := by
  have h := int_and_number_widen_to_number.1
    [some (RecordData.num 1),
     some (RecordData.num (Rat.mk' 3 2 (by decide) (by decide)))]
    (by
      intro v hv
      rcases List.mem_cons.mp hv with hv | hv
      · exact ⟨1, hv⟩
      · rcases List.mem_cons.mp hv with hv | hv
        · exact ⟨Rat.mk' 3 2 (by decide) (by decide), hv⟩
        · exact absurd hv (List.not_mem_nil _))
    ⟨1, List.mem_cons_self _ _, by decide⟩
    ⟨Rat.mk' 3 2 (by decide) (by decide),
      List.mem_cons_of_mem _ (List.mem_cons_self _ _), by decide⟩
  exact h

/-- C8: the orchestrator sends no cancellation signal to sibling
pipelines when one fails: (1) a step of pipeline `i` never changes any
sibling pipeline `j`; (2) the `os.Exit(1)` step of a failed producer
changes no pipeline state and emits nothing; and (3) concretely, after
stream "a"'s read fails, stream "b"'s pipeline still runs to completion
(its consumer reaches `group.Done()`), after which the process exits
with stream "a"'s fatal message and no catalog is ever emitted — the
completed sibling's result is discarded. -/
theorem no_active_cancellation_of_siblings :
    (∀ (s : Sys) (i : Nat) (pl : PLabel) (t : Sys) (j : Nat),
      sstep (SLabel.pipe i pl) s = some t → j ≠ i →
      t.pipes[j]? = s.pipes[j]?) ∧
    (∀ (s : Sys) (i : Nat) (t : Sys),
      sstep (SLabel.fatalProd i) s = some t →
      t.pipes = s.pipes ∧ t.emitted = s.emitted) ∧
    (srun c8Sched (sinit c8Input)).map
      (fun s => (s.exited, s.pipes[1]?.map fun p => consDoneB p.cons,
                 s.emitted)) =
      some (some (readFatalMsg "a" "boom"), some true, none) := by
  refine ⟨?_, ?_, by rfl⟩
  · intro s i pl t j h hij
    obtain ⟨_, p, q, hp, hq, rfl⟩ := sstep_pipe_inv s t i pl h
    exact List.getElem?_set_ne (fun hx => hij hx.symm)
  · intro s i t h
    obtain ⟨_, p, e, hp, hprod, rfl⟩ := sstep_fatalProd_inv s t i h
    exact ⟨rfl, rfl⟩

/-- Witness for C8: stream "a"'s error-observation step leaves stream
"b"'s pipeline untouched. -/
theorem no_active_cancellation_of_siblings_witness :
    c8Mid2.pipes[1]? = c8Mid.pipes[1]? :=
  no_active_cancellation_of_siblings.1 c8Mid 0 PLabel.error c8Mid2 1
    (by rfl) (by decide)

/-- C9: under every input and schedule, whenever `DiscoverCmd.RunE` has
returned, the catalog has been logged first — `RunE` has no failure
return: its only return statement is `return nil` after `LogCatalog`
(every failure path instead ends the whole process with exit status 1
via `logger.Fatal` / `logger.Fatalf`, modelled by the `exited` field,
which every fatal step sets). -/
theorem rune_returns_only_after_catalog (input : DiscoverInput)
    (sched : List SLabel) (s : Sys)
    (hrun : srun sched (sinit input) = some s)
    (hret : s.returned = true) :
    s.emitted.isSome = true ∧ s.mainPC = MainPC.returned := by
  have hinit : returnInv (sinit input) := by
    constructor
    · intro hr; simp [sinit] at hr
    · intro hl; rcases hl with hl | hl <;> simp [sinit] at hl
  have hinv := srun_inv returnInv returnInv_step sched (sinit input) s hinit hrun
  exact ⟨hinv.2 (Or.inr (hinv.1 hret)), hinv.1 hret⟩

/-- Witness for C9: the completed one-stream run has returned with its
catalog logged. -/
theorem rune_returns_only_after_catalog_witness :
    c9Final.emitted.isSome = true ∧ c9Final.mainPC = MainPC.returned :=
  rune_returns_only_after_catalog c9Input c9Sched c9Final (by rfl) rfl

/-- C10: `FileLogger` returns an error and leaves the file system
untouched when the CONFIG_FOLDER setting is empty (whatever the
marshalling did) or when marshalling fails; otherwise, when the open
succeeds, it returns no error and the target file holds exactly the
marshalled JSON bytes — truncating whatever the file held before —
while every other file is unchanged. -/
theorem fileLogger_guards_and_truncation
    (configFolder : String) (marshalRes : Except String (List Nat))
    (fileName fileExtension : String) (openErr : Option String)
    (fs : FileSys) :
    (configFolder = "" →
      fileLogger configFolder marshalRes fileName fileExtension openErr fs =
        Except.error "config folder is not set") ∧
    (∀ e, marshalRes = Except.error e → configFolder ≠ "" →
      fileLogger configFolder marshalRes fileName fileExtension openErr fs =
        Except.error ("failed to marshal content: " ++ e)) ∧
    (∀ bytes, marshalRes = Except.ok bytes → configFolder ≠ "" →
      openErr = none →
      ∃ fs2,
        fileLogger configFolder marshalRes fileName fileExtension openErr fs =
          Except.ok fs2 ∧
        fs2 (configFolder ++ "/" ++ fileName ++ fileExtension) = some bytes ∧
        ∀ path, path ≠ configFolder ++ "/" ++ fileName ++ fileExtension →
          fs2 path = fs path) := by
  refine ⟨fun hempty => ?_, fun e hm hne => ?_, fun bytes hm hne hopen => ?_⟩
  · simp [fileLogger, hempty]
  · simp [fileLogger, hm, if_neg hne]
  · subst hm hopen
    refine ⟨fun path =>
      if path = configFolder ++ "/" ++ fileName ++ fileExtension then
        some bytes else fs path, ?_, ?_, ?_⟩
    · simp [fileLogger, if_neg hne]
    · simp
    · intro path hpath
      simp [if_neg hpath]

/-- Witness for C10: a concrete successful write over a file that
previously held different bytes. -/
theorem fileLogger_guards_and_truncation_witness :
    ∃ fs2, fileLogger "conf" (Except.ok [1, 2]) "stats" ".json" none
        (fun _ => some [9]) = Except.ok fs2 ∧
      fs2 ("conf" ++ "/" ++ "stats" ++ ".json") = some [1, 2] ∧
      ∀ path, path ≠ "conf" ++ "/" ++ "stats" ++ ".json" →
        fs2 path = (fun _ => some [9] : FileSys) path :=
  (fileLogger_guards_and_truncation "conf" (Except.ok [1, 2]) "stats" ".json"
    none (fun _ => some [9])).2.2 [1, 2] rfl (by simp) rfl
